import Mathlib

/-!
Shallow embedding of the Aurora voice-assistant (mehulcode12/aurora).

Embedded from the Python sources:
* `AuroraLLM.generate_response` (`main.py`, identical parsing logic in
  `aurora_fastapi.py` and `backend/aurora_twilio.py`): bracket-tag parsing
  of `[URGENCY: ...]` / `[SOURCES: ...]`, tag stripping, and the
  exception fallback.
* `AuroraLLM.generate_response` (`aurora_livekit.py`): the urgency-keyword
  heuristic and the parameters of the chat-completion request.
* `ConversationManager` (`main.py`): per-call history and exchange counting.
* `process_speech` / `api_process_speech` webhooks (`main.py`): length gate,
  short-input drop, and the generate/record pipeline.
* `ActiveCallsManager.add_conversation_entry` (`main.py`): the active-calls
  store keyed by phone number, with the Firebase existence check.

Python strings are modelled as `List Char`; the Python helpers used by the
source (`str.find`, slicing, `strip`, `lower`, `upper`, `in`) are embedded
as executable functions.  Wall-clock timestamps and log/print side effects
are not modelled: no claim depends on them.
-/

namespace Aurora

/-- ASCII whitespace removed by Python's `str.strip()`. -/
def pySpace (c : Char) : Bool :=
  c == ' ' || c == '\t' || c == '\n' || c == '\r' || c == '\x0b' || c == '\x0c'

/-- Python `str.strip()`: drop leading and trailing whitespace. -/
def pyStrip (s : List Char) : List Char :=
  ((s.dropWhile pySpace).reverse.dropWhile pySpace).reverse

/-- Python `str.lower()`. -/
def pyLower (s : List Char) : List Char := s.map Char.toLower

/-- Python `str.upper()`. -/
def pyUpper (s : List Char) : List Char := s.map Char.toUpper

/-- Python `haystack.find(sub)`: index of the first occurrence of `sub`,
`none` where Python returns `-1`. -/
def pyFind (sub : List Char) : List Char → Option Nat
  | [] => if sub = [] then some 0 else none
  | c :: rest =>
      if sub <+: (c :: rest) then some 0 else (pyFind sub rest).map (· + 1)

/-- Python `sub in haystack` (substring containment test). -/
def pyContains (sub s : List Char) : Bool := (pyFind sub s).isSome

/-- The longest proper prefix of `s` not containing `sub`; equals
`s.take i` when `pyFind sub s = some i` (proved in `cutBefore_eq_take`). -/
def cutBefore (sub : List Char) : List Char → List Char
  | [] => []
  | c :: rest => if sub <+: (c :: rest) then [] else c :: cutBefore sub rest

/-- The literal tag `"[URGENCY:"` (9 characters) from `generate_response`. -/
def urgencyTag : List Char := "[URGENCY:".toList

/-- The literal tag `"[SOURCES:"` (9 characters) from `generate_response`. -/
def sourcesTag : List Char := "[SOURCES:".toList

/-- `valid_levels = ["critical", "urgent", "normal", "assistive"]` from
`generate_response`, in the source order (most urgent first). -/
def validLevels : List (List Char) :=
  ["critical".toList, "urgent".toList, "normal".toList, "assistive".toList]

/-- Urgency extraction from the raw model output (`main.py`):
```
urgency_level = "normal"
if "[URGENCY:" in full_response:
    urgency_start = full_response.find("[URGENCY:") + 9
    urgency_end = full_response.find("]", urgency_start)
    urgency_level = full_response[urgency_start:urgency_end].strip().lower()
    if urgency_level not in valid_levels: urgency_level = "normal"
```
When `"]"` is absent after the tag, Python's `find` returns `-1` and the
slice `full[start:-1]` ends one character before the end of the string. -/
def parseUrgency (full : List Char) : List Char :=
  match pyFind urgencyTag full with
  | none => "normal".toList
  | some i =>
      let start := i + 9
      let stop : Nat :=
        match pyFind "]".toList (full.drop start) with
        | some j => start + j
        | none => full.length - 1
      let lvl := pyLower (pyStrip ((full.take stop).drop start))
      if lvl ∈ validLevels then lvl else "normal".toList

/-- Sources extraction from the raw model output (`main.py`).  The Python
variable starts as the empty list `[]` and is replaced by a string when the
`[SOURCES: ...]` tag is present; modelled as `Option (List Char)` with
`none` for the initial empty list. -/
def parseSources (full : List Char) : Option (List Char) :=
  match pyFind sourcesTag full with
  | none => none
  | some i =>
      let start := i + 9
      let stop : Nat :=
        match pyFind "]".toList (full.drop start) with
        | some j => start + j
        | none => full.length - 1
      some (pyStrip ((full.take stop).drop start))

/-- The candidate urgency value `parseUrgency` extracts when the tag sits
at position `i`: the slice from the character after `"[URGENCY:"` to the
closing bracket (or to the penultimate character when `"]"` is absent),
stripped and lowered — named so the unrecognized-value default of
`parseUrgency` can be stated about it. -/
def parsedLevel (full : List Char) (i : Nat) : List Char :=
  pyLower (pyStrip ((full.take
    (match pyFind "]".toList (full.drop (i + 9)) with
     | some j => i + 9 + j
     | none => full.length - 1)).drop (i + 9)))

/-- One truncation step of the tag stripping in `generate_response`:
`if sub in msg: msg = msg[:msg.find(sub)].strip()`. -/
def stripTag (sub s : List Char) : List Char :=
  match pyFind sub s with
  | some i => pyStrip (s.take i)
  | none => s

/-- The response text returned to the caller: the raw model output with
the `[URGENCY:` truncation applied first, then the `[SOURCES:` one. -/
def stripTags (full : List Char) : List Char :=
  stripTag sourcesTag (stripTag urgencyTag full)

/-- One conversation turn `{"role": ..., "content": ...}`. -/
structure Turn where
  role : List Char
  content : List Char
deriving DecidableEq

/-- The system-prompt text sent with every request.  Its textual content
(loaded from `output.txt` plus fixed instructions) is irrelevant to every
claim; only its position as the single system turn matters. -/
def systemPromptText : List Char := "Aurora system prompt".toList

/-- `enhanced_messages = [system] + conversation_history + [user turn]`. -/
def enhancedMessages (conversation_history : List Turn) (user_input : List Char) :
    List Turn :=
  ⟨"system".toList, systemPromptText⟩ ::
    (conversation_history ++ [⟨"user".toList, user_input⟩])

/-- The fixed fail-safe message returned by `main.py` when the
chat-completion call raises. -/
def failSafeText : List Char :=
  ("Emergency system error. \x7bTokens per day limit exceeded - too many tokens processed.\x7d Please call your supervisor at extension 9999 immediately.").toList

/-- `AuroraLLM.generate_response` (`main.py`).  The remote chat-completion
call is the only effect: its outcome is passed as `callResult`
(`Except.error` models a raised exception — failure or timeout — caught by
the `except` block; `Except.ok` the returned raw output string). -/
def generate_response (conversation_history : List Turn) (user_input : List Char)
    (callResult : Except (List Char) (List Char)) :
    List Char × List Char × Option (List Char) :=
  match callResult with
  | .error _ =>
      (failSafeText, "critical".toList, some ("Emergency Procedures Manual".toList))
  | .ok full => (stripTags full, parseUrgency full, parseSources full)

/-- `urgent_keywords` from `AuroraLLM.generate_response` in
`aurora_livekit.py`. -/
def urgent_keywords : List (List Char) :=
  ["gas".toList, "leak".toList, "fire".toList, "injured".toList,
   "emergency".toList, "help".toList, "danger".toList, "smoke".toList,
   "bleeding".toList, "explosion".toList]

/-- `is_urgent = any(keyword in user_input.lower() for keyword in
urgent_keywords)` (`aurora_livekit.py`): the urgency-priority keyword
heuristic on the raw input. -/
def is_urgent (user_input : List Char) : Bool :=
  urgent_keywords.any (fun k => pyContains k (pyLower user_input))

/-- The parameters passed to the chat-completion capability
(`client.chat.completions.create`).  `temperature=0.2` is omitted: a float
constant no claim touches. -/
structure ChatRequest where
  model : List Char
  messages : List Turn
  maxTokens : Nat
deriving DecidableEq

/-- The system prompt of `aurora_livekit.py` (content abstracted; no claim
depends on its text). -/
def livekitSystemPrompt : List Char := "Aurora livekit system prompt".toList

/-- The request built by `AuroraLLM.generate_response` in
`aurora_livekit.py`: `model=CEREBRAS_MODEL` (`"llama3.1-8b"`),
`messages = [system] + conversation_history + [user]`, and the literal
constant `max_tokens=150` written at the call site. -/
def livekit_request (conversation_history : List Turn) (user_input : List Char) :
    ChatRequest :=
  { model := "llama3.1-8b".toList
    messages := ⟨"system".toList, livekitSystemPrompt⟩ ::
      (conversation_history ++ [⟨"user".toList, user_input⟩])
    maxTokens := 150 }

/-- The request built by `AuroraLLM.generate_response` in `main.py`
(`aurora_fastapi.py` and `backend/aurora_twilio.py` are identical):
the literal constant `max_tokens=250`. -/
def main_request (conversation_history : List Turn) (user_input : List Char) :
    ChatRequest :=
  { model := "llama-3.3-70b".toList
    messages := enhancedMessages conversation_history user_input
    maxTokens := 250 }

/-- `AuroraLLM.generate_response` of `aurora_livekit.py`: returns the
response text and the keyword-derived `is_urgent` flag; on a raised
chat-completion call it returns the fixed fallback and `True`. -/
def livekit_generate_response (_conversation_history : List Turn)
    (user_input : List Char) (callResult : Except (List Char) (List Char)) :
    List Char × Bool :=
  match callResult with
  | .error _ =>
      (("Emergency system error. Please call your supervisor at extension 9999 immediately.").toList, true)
  | .ok txt => (txt, is_urgent user_input)

/-- One critical-alert record (`ConversationManager.add_critical_alert`);
the wall-clock timestamp is not modelled. -/
structure Alert where
  workerMessage : List Char
  auroraResponse : List Char
  urgencyLevel : List Char
  sources : Option (List Char)
deriving DecidableEq

/-- One conversation record of `ConversationManager` (`main.py`):
`{"history": [], "start_time": ..., "exchange_count": 0,
"critical_alerts": []}`; `start_time` is a wall-clock field no claim
depends on. -/
structure Conv where
  history : List Turn
  exchangeCount : Nat
  criticalAlerts : List Alert
deriving DecidableEq

/-- The record created by `get_conversation` for an unseen `call_sid`. -/
def freshConv : Conv := { history := [], exchangeCount := 0, criticalAlerts := [] }

/-- `ConversationManager.add_message`: append the turn to the history and
increment `exchange_count` exactly when the role is `"user"`. -/
def add_message (conv : Conv) (role content : List Char) : Conv :=
  { conv with
    history := conv.history ++ [⟨role, content⟩]
    exchangeCount :=
      if role = "user".toList then conv.exchangeCount + 1 else conv.exchangeCount }

/-- The `ConversationManager.conversations` dict: `call_sid` to record. -/
def ConvStore : Type := List Char → Option Conv

/-- The initial empty dict. -/
def emptyStore : ConvStore := fun _ => none

/-- `ConversationManager.get_conversation`: get-or-create; returns the
updated store and the record for `call_sid`. -/
def get_conversation (store : ConvStore) (callSid : List Char) :
    ConvStore × Conv :=
  match store callSid with
  | some conv => (store, conv)
  | none =>
      (fun sid => if sid = callSid then some freshConv else store sid, freshConv)

/-- `ConversationManager.add_message` at the store level (it begins with
`conv = self.get_conversation(call_sid)`). -/
def mgr_add_message (store : ConvStore) (callSid role content : List Char) :
    ConvStore :=
  let g := get_conversation store callSid
  fun sid => if sid = callSid then some (add_message g.2 role content) else g.1 sid

/-- The operations of claim C9: `get_conversation` and `add_message`. -/
inductive MgrOp where
  | getConv (callSid : List Char)
  | addMsg (callSid role content : List Char)

/-- Apply one manager operation. -/
def applyOp (store : ConvStore) : MgrOp → ConvStore
  | .getConv sid => (get_conversation store sid).1
  | .addMsg sid role content => mgr_add_message store sid role content

/-- Apply a sequence of manager operations. -/
def applyOps (ops : List MgrOp) (store : ConvStore) : ConvStore :=
  ops.foldl applyOp store

/-- Number of history entries whose role is `"user"`. -/
def userCount : List Turn → Nat
  | [] => 0
  | t :: rest => (if t.role = "user".toList then 1 else 0) + userCount rest

/-- The invariant of claim C9: every stored record counts exactly its
user-role history entries. -/
def StoreInv (s : ConvStore) : Prop :=
  ∀ sid conv, s sid = some conv → conv.exchangeCount = userCount conv.history

/-- `MAX_CONVERSATION_LENGTH = 20` (`Config`, identical in `main.py`,
`aurora_fastapi.py`, `aurora_livekit.py`, `backend/aurora_twilio.py`). -/
def MAX_CONVERSATION_LENGTH : Nat := 20

/-- What the `/process-speech` webhook speaks back (the TwiML verbs). -/
inductive SpeechOutcome where
  /-- "Maximum conversation length reached ... Goodbye." then `hangup`;
  `end_conversation` deletes the record. -/
  | maxLengthHangup
  /-- "I couldn't understand that ..." then `redirect('/incoming-call')`:
  the call continues, the turn is discarded. -/
  | tooShortReprompt
  /-- The generated response is spoken and a new `gather` is appended. -/
  | answered (text urgency : List Char) (sources : Option (List Char))
deriving DecidableEq

/-- The conversation-record update of the answered path of
`/process-speech`: add the user turn, add the assistant turn, and record a
critical alert when the urgency is critical or urgent. -/
def record_answer (conv : Conv) (speech text urgency : List Char)
    (sources : Option (List Char)) : Conv :=
  let conv1 := add_message conv "user".toList speech
  let conv2 := add_message conv1 "assistant".toList text
  if urgency = "critical".toList ∨ urgency = "urgent".toList then
    { conv2 with
      criticalAlerts := conv2.criticalAlerts ++ [⟨speech, text, urgency, sources⟩] }
  else conv2

/-- The `/process-speech` webhook of `main.py` for one invocation, acting
on the conversation record of the calling `CallSid` (already fetched by
`get_conversation`).  `llm` abstracts `aurora_llm.generate_response` — a
total Python function: its internal failure handling is `generate_response`
above.  Returns the updated record (`none` when `end_conversation` deleted
it) and the outcome.  The `ActiveCallsManager` recording of the answered
path is modelled separately by `add_conversation_entry`. -/
def process_speech
    (llm : List Turn → List Char → List Char × List Char × Option (List Char))
    (conv : Conv) (speechResult : List Char) : Option Conv × SpeechOutcome :=
  if MAX_CONVERSATION_LENGTH ≤ conv.exchangeCount then
    (none, .maxLengthHangup)
  else if speechResult = [] ∨ (pyStrip speechResult).length < 3 then
    (some conv, .tooShortReprompt)
  else
    let r := llm (add_message conv "user".toList speechResult).history speechResult
    (some (record_answer conv speechResult r.1 r.2.1 r.2.2),
      .answered r.1 r.2.1 r.2.2)

/-- One webhook invocation for a fixed `CallSid`: the handler starts with
`get_conversation`, which recreates a fresh record when the previous
max-length hangup deleted it. -/
def speech_round
    (llm : List Turn → List Char → List Char × List Char × Option (List Char))
    (slot : Option Conv) (speech : List Char) : Option Conv × SpeechOutcome :=
  process_speech llm (slot.getD freshConv) speech

/-- A call session: the sequence of `/process-speech` invocations of one
`CallSid`, threading the conversation record. -/
def speech_session
    (llm : List Turn → List Char → List Char × List Char × Option (List Char))
    (slot : Option Conv) : List (List Char) → Option Conv
  | [] => slot
  | speech :: rest => speech_session llm (speech_round llm slot speech).1 rest

/-- The JSON reply of the `/api/process-speech` endpoint. -/
inductive ApiOutcome where
  /-- Fixed "I couldn't understand that ..." JSON with urgency "normal". -/
  | misunderstood
  /-- The generated response JSON. -/
  | answered (text urgency : List Char) (sources : Option (List Char))
deriving DecidableEq

/-- The `/api/process-speech` endpoint of `main.py`: stateless — it calls
`generate_response([], speech_result)` with an empty history after the
same minimum-length gate. -/
def api_process_speech
    (llm : List Turn → List Char → List Char × List Char × Option (List Char))
    (speech : List Char) : ApiOutcome :=
  if speech = [] ∨ (pyStrip speech).length < 3 then .misunderstood
  else
    let r := llm ([] : List Turn) speech
    .answered r.1 r.2.1 r.2.2

/-- One `active_calls` record of `ActiveCallsManager` (`main.py`).  The
wall-clock fields `timestamp` and `last_message_at` are not modelled. -/
structure CallRec where
  workerId : List Char
  mobileNo : List Char
  conversationId : List Char
  urgency : List Char
  status : List Char
  medium : List Char
deriving DecidableEq

/-- One message of an `active_conversations` entry; the `msg_...` dict keys
are derived from the insertion position and carry no extra information, so
messages are modelled as an insertion-ordered list; the wall-clock
`timestamp` field is not modelled. -/
structure ConvMsg where
  role : List Char
  content : List Char
  msgSources : List Char
deriving DecidableEq

/-- The `total.json` store: the two insertion-ordered dicts
`active_calls` and `active_conversations`. -/
structure Store where
  activeCalls : List (List Char × CallRec)
  activeConversations : List (List Char × List ConvMsg)
deriving DecidableEq

/-- Python dict assignment `d[k] = v` on an insertion-ordered
association list: replace in place when the key exists, append otherwise. -/
def alSet {α : Type} (k : List Char) (v : α) :
    List (List Char × α) → List (List Char × α)
  | [] => [(k, v)]
  | p :: rest => if p.1 = k then (k, v) :: rest else p :: alSet k v rest

/-- Python dict lookup `d.get(k)` / `d[k]` on an association list. -/
def alGet {α : Type} (k : List Char) (l : List (List Char × α)) : Option α :=
  (l.find? (fun p => p.1 == k)).map (fun p => p.2)

/-- The condition of the scan loop of `add_conversation_entry`:
`call_data["mobile_no"] == phone_number and call_data["status"] == "ACTIVE"`. -/
def isActiveFor (phone : List Char) (c : CallRec) : Bool :=
  c.mobileNo == phone && c.status == "ACTIVE".toList

/-- The loop of `add_conversation_entry` that scans `active_calls` for a
call of this phone number whose status is `"ACTIVE"` (first match in
insertion order). -/
def findActiveCall (calls : List (List Char × CallRec)) (phone : List Char) :
    Option (List Char × CallRec) :=
  calls.find? (fun p => isActiveFor phone p.2)

/-- `clean_phone = phone_number.replace('+','').replace('-','').replace(' ','')`
(`_generate_call_id`). -/
def clean_phone (phone : List Char) : List Char :=
  phone.filter (fun c => !(c == '+' || c == '-' || c == ' '))

/-- The characters after the first separator: `s.split(sep, 1)[1]`. -/
def afterFirst (sep : Char) : List Char → List Char
  | [] => []
  | c :: rest => if c = sep then rest else afterFirst sep rest

/-- `_generate_call_id`: `f"call_{clean_phone}_{timestamp}"`; the
wall-clock timestamp part is passed in as `freshSuffix`. -/
def generate_call_id (phone freshSuffix : List Char) : List Char :=
  "call_".toList ++ clean_phone phone ++ "_".toList ++ freshSuffix

/-- `_generate_conv_id`: `f"conv_{call_id.split('_', 1)[1]}"`. -/
def generate_conv_id (callId : List Char) : List Char :=
  "conv_".toList ++ afterFirst '_' callId

/-- `f"worker_{phone_number.replace('+','').replace('-','').replace('_','')}"`
(`main.py`; note it removes `_`, not the space that `clean_phone` removes). -/
def worker_id_of (phone : List Char) : List Char :=
  "worker_".toList ++ phone.filter (fun c => !(c == '+' || c == '-' || c == '_'))

/-- `ActiveCallsManager.add_conversation_entry` (`main.py`).  External
environment passed in: `fbExists cid` models the Firebase Realtime-DB
check `db.reference(f'active_calls/{cid}').get()` being truthy — on a
falsy result, or on an exception of the check, the locally found ACTIVE
call is discarded (`existing_call_id = None`) and a new call is created;
`freshSuffix` models the wall-clock timestamp used by
`_generate_call_id`.  The unused `call_sid` parameter is omitted.  A
`KeyError` on the conversation or call lookup aborts through the outer
`except` before `_save_data` runs, so the saved store is unchanged and
`(None, None)` is returned — modelled by the fall-through case. -/
def add_conversation_entry (fbExists : List Char → Bool)
    (freshSuffix phone user_query aurora_response urgency_level : List Char)
    (sources : Option (List Char)) (medium : List Char) (store : Store) :
    Store × Option (List Char × List Char) :=
  let found0 := findActiveCall store.activeCalls phone
  let found :=
    match found0 with
    | some p => if fbExists p.1 then some p else none
    | none => none
  let trip :=
    match found with
    | some p => (p.1, p.2.conversationId, store)
    | none =>
        let call_id := generate_call_id phone freshSuffix
        let conv_id := generate_conv_id call_id
        let newRec : CallRec :=
          { workerId := worker_id_of phone
            mobileNo := phone
            conversationId := conv_id
            urgency := pyUpper urgency_level
            status := "ACTIVE".toList
            medium := medium }
        (call_id, conv_id,
          { activeCalls := alSet call_id newRec store.activeCalls
            activeConversations := alSet conv_id [] store.activeConversations })
  let call_id := trip.1
  let conv_id := trip.2.1
  let store1 := trip.2.2
  match alGet conv_id store1.activeConversations, alGet call_id store1.activeCalls with
  | some msgs, some c =>
      let msgs2 := msgs ++
        [⟨"user".toList, user_query, []⟩,
         ⟨"assistant".toList, aurora_response, sources.getD []⟩]
      ({ activeCalls :=
           alSet call_id { c with urgency := pyUpper urgency_level } store1.activeCalls
         activeConversations := alSet conv_id msgs2 store1.activeConversations },
       some (call_id, conv_id))
  | _, _ => (store, none)

/-- Number of ACTIVE calls of `phone` in the store. -/
def activeCount (store : Store) (phone : List Char) : Nat :=
  List.countP (fun p => isActiveFor phone p.2) store.activeCalls

/-- A store with exactly one ACTIVE call, of phone number `"p"`, used by
the C10 counterexample and witness. -/
def demoActiveStore : Store :=
  { activeCalls :=
      [(("call_p_1".toList),
        { workerId := "worker_p".toList
          mobileNo := "p".toList
          conversationId := "conv_p_1".toList
          urgency := "NORMAL".toList
          status := "ACTIVE".toList
          medium := "Voice".toList })]
    activeConversations := [(("conv_p_1".toList), [])] }

/-- Modelled from the spec: the state machine of the `UtteranceSegmenter`
(§4.2).  The segmenter belongs to the real-time duplex audio pipeline
core, which is not among the source files under review; it is embedded
from the specification's transition table.  A frame is modelled by its
speech/non-speech tag (`true` = speech). -/
inductive SegState where
  | idle
  | accumulating (frames : List Bool) (silence : Nat)
deriving DecidableEq

/-- Modelled from the spec: one `UtteranceSegmenter` transition with
finalize threshold `n = ceil(SILENCE_DURATION_MS / FRAME_DURATION_MS)`:
IDLE + speech starts a new utterance; IDLE + silence is a no-op;
ACCUMULATING + speech appends and clears the counter; ACCUMULATING +
silence increments the counter, appending the frame only while still
below the threshold, and finalizes (emitting the accumulated utterance
and returning to IDLE) when the counter reaches it. -/
def segStep (n : Nat) : SegState → Bool → SegState × Option (List Bool)
  | .idle, true => (.accumulating [true] 0, none)
  | .idle, false => (.idle, none)
  | .accumulating fs _, true => (.accumulating (fs ++ [true]) 0, none)
  | .accumulating fs k, false =>
      if n ≤ k + 1 then (.idle, some fs)
      else (.accumulating (fs ++ [false]) (k + 1), none)

/-- Modelled from the spec: run the segmenter over a frame sequence,
collecting the finalized utterances in emission order. -/
def segRun (n : Nat) (s : SegState) : List Bool → SegState × List (List Bool)
  | [] => (s, [])
  | f :: rest =>
      let st := segStep n s f
      let r := segRun n st.1 rest
      (r.1, st.2.toList ++ r.2)

/-- Well-formedness of reachable segmenter states: an open utterance was
started by a speech frame and the silence counter is below the
threshold. -/
def SegWF (n : Nat) : SegState → Prop
  | .idle => True
  | .accumulating fs k => fs.head? = some true ∧ k < n

/-- `ceil(a / b)` on naturals: the finalize threshold
`ceil(SILENCE_DURATION_MS / FRAME_DURATION_MS)` of the spec. -/
def ceilDiv (a b : Nat) : Nat := (a + b - 1) / b

/-- Modelled from the spec: sentence-boundary punctuation on which the
`StreamingSynthesizer` (§4.5, not among the source files under review)
splits a response into sentence units. -/
def isBoundary (c : Char) : Bool := c == '.' || c == '!' || c == '?'

/-- Modelled from the spec: accumulate characters until a boundary, close
the unit there, sanitize it (strip surrounding whitespace) and skip units
that are empty after sanitization. -/
def sentAux : List Char → List Char → List (List Char)
  | [], acc =>
      let u := pyStrip acc.reverse
      if u = [] then [] else [u]
  | c :: rest, acc =>
      if isBoundary c then
        let u := pyStrip (c :: acc).reverse
        if u = [] then sentAux rest [] else u :: sentAux rest []
      else sentAux rest (c :: acc)

/-- Modelled from the spec: split a response text into sanitized sentence
units, in original order. -/
def splitSentences (s : List Char) : List (List Char) := sentAux s []

/-- One observable event of the streaming-synthesis stage: unit `i` is
synthesized, or its finished audio is enqueued to the `PlaybackSink`. -/
inductive SynthEv where
  | synth (i : Nat)
  | enqueue (i : Nat)
deriving DecidableEq

/-- Modelled from the spec: the event trace of `StreamingSynthesizer` for
`n` units — for each unit in original order, synthesize it and hand its
audio onward immediately, before the next unit's synthesis begins. -/
def synthTrace : Nat → List SynthEv
  | 0 => []
  | n + 1 => synthTrace n ++ [SynthEv.synth n, SynthEv.enqueue n]

/-- Modelled from the spec: `PlaybackSink` is a single ordered consumer
draining the audio queue FIFO, so buffers are played in enqueue order. -/
def playOrder (tr : List SynthEv) : List Nat :=
  tr.filterMap (fun e => match e with | .enqueue i => some i | .synth _ => none)

end Aurora

namespace Aurora

/-! Substring lemmas about the embedded Python helpers. -/

theorem pre_to_inf {a b : List Char} (h : a <+: b) : a <:+: b := by
  obtain ⟨t, ht⟩ := h
  exact ⟨[], t, by simpa using ht⟩

theorem inf_cons_cases {c : Char} {sub l : List Char} (h : sub <:+: c :: l) :
    sub <+: c :: l ∨ sub <:+: l := by
  obtain ⟨s, t, hst⟩ := h
  cases s with
  | nil => exact Or.inl ⟨t, by simpa using hst⟩
  | cons b s' =>
      right
      simp only [List.cons_append, List.cons.injEq] at hst
      exact ⟨s', t, hst.2⟩

theorem inf_cons_of {c : Char} {sub l : List Char} (h : sub <:+: l) :
    sub <:+: c :: l := by
  obtain ⟨s, t, hst⟩ := h
  exact ⟨c :: s, t, by simp [hst]⟩

theorem take_pre (s : List Char) (n : Nat) : s.take n <+: s :=
  ⟨s.drop n, s.take_append_drop n⟩

theorem dropWhile_suf (p : Char → Bool) (t : List Char) : t.dropWhile p <:+ t := by
  induction t with
  | nil => exact ⟨[], rfl⟩
  | cons c r ih =>
      by_cases h : p c
      · obtain ⟨s, hs⟩ := ih
        simp only [List.dropWhile, h]
        exact ⟨c :: s, by simp [hs]⟩
      · simp only [List.dropWhile, h]
        exact ⟨[], rfl⟩

theorem pyStrip_inf (t : List Char) : pyStrip t <:+: t := by
  obtain ⟨s1, hs1⟩ := dropWhile_suf pySpace t
  obtain ⟨s2, hs2⟩ := dropWhile_suf pySpace (t.dropWhile pySpace).reverse
  have hpre : pyStrip t <+: t.dropWhile pySpace := by
    refine ⟨s2.reverse, ?_⟩
    have hrev := congrArg List.reverse hs2
    simpa [pyStrip] using hrev
  obtain ⟨t1, ht1⟩ := hpre
  exact ⟨s1, t1, by rw [List.append_assoc, ht1, hs1]⟩

theorem cutBefore_pre (sub : List Char) : ∀ s, cutBefore sub s <+: s := by
  intro s
  induction s with
  | nil => exact ⟨[], rfl⟩
  | cons c r ih =>
      by_cases h : sub <+: c :: r
      · simp only [cutBefore, if_pos h]
        exact ⟨c :: r, rfl⟩
      · simp only [cutBefore, if_neg h]
        obtain ⟨t, ht⟩ := ih
        exact ⟨t, by simp [ht]⟩

theorem cutBefore_eq_take (sub : List Char) :
    ∀ s i, pyFind sub s = some i → s.take i = cutBefore sub s := by
  intro s
  induction s with
  | nil =>
      intro i h
      simp [cutBefore]
  | cons c r ih =>
      intro i h
      by_cases hp : sub <+: c :: r
      · simp only [pyFind, if_pos hp, Option.some.injEq] at h
        simp [cutBefore, if_pos hp, ← h]
      · simp only [pyFind, if_neg hp, Option.map_eq_some'] at h
        obtain ⟨j, hj, rfl⟩ := h
        simp [cutBefore, if_neg hp, List.take_succ_cons, ih j hj]

theorem pyFind_none_not_inf (sub : List Char) :
    ∀ s, pyFind sub s = none → ¬ sub <:+: s := by
  intro s
  induction s with
  | nil =>
      intro h hinf
      obtain ⟨a, b, hab⟩ := hinf
      have : sub = [] := by
        rcases List.append_eq_nil.mp (List.append_eq_nil.mp hab).1 with ⟨h1, h2⟩
        exact h2
      simp [pyFind, this] at h
  | cons c r ih =>
      intro h hinf
      by_cases hp : sub <+: c :: r
      · simp [pyFind, if_pos hp] at h
      · simp only [pyFind, if_neg hp, Option.map_eq_none'] at h
        rcases inf_cons_cases hinf with h1 | h2
        · exact hp h1
        · exact ih h h2

theorem pyFind_some_inf (sub : List Char) :
    ∀ s i, pyFind sub s = some i → sub <:+: s := by
  intro s
  induction s with
  | nil =>
      intro i h
      have : sub = [] := by
        by_cases hs : sub = []
        · exact hs
        · simp [pyFind, hs] at h
      exact ⟨[], [], by simp [this]⟩
  | cons c r ih =>
      intro i h
      by_cases hp : sub <+: c :: r
      · exact pre_to_inf hp
      · simp only [pyFind, if_neg hp, Option.map_eq_some'] at h
        obtain ⟨j, hj, _⟩ := h
        exact inf_cons_of (ih j hj)

theorem not_inf_cutBefore (sub : List Char) (hsub : sub ≠ []) :
    ∀ s, ¬ sub <:+: cutBefore sub s := by
  intro s
  induction s with
  | nil =>
      intro hinf
      obtain ⟨a, b, hab⟩ := hinf
      have : sub = [] :=
        (List.append_eq_nil.mp (List.append_eq_nil.mp hab).1).2
      exact hsub this
  | cons c r ih =>
      intro hinf
      by_cases hp : sub <+: c :: r
      · simp only [cutBefore, if_pos hp] at hinf
        obtain ⟨a, b, hab⟩ := hinf
        exact hsub (List.append_eq_nil.mp (List.append_eq_nil.mp hab).1).2
      · simp only [cutBefore, if_neg hp] at hinf
        rcases inf_cons_cases hinf with h1 | h2
        · obtain ⟨t1, ht1⟩ := cutBefore_pre sub r
          have hX : c :: cutBefore sub r <+: c :: r := ⟨t1, by simp [ht1]⟩
          exact hp (h1.trans hX)
        · exact ih h2

theorem stripTag_not_inf (sub s : List Char) (hsub : sub ≠ []) :
    ¬ sub <:+: stripTag sub s := by
  intro hinf
  unfold stripTag at hinf
  cases h : pyFind sub s with
  | none =>
      rw [h] at hinf
      exact pyFind_none_not_inf sub s h hinf
  | some i =>
      simp only [h] at hinf
      rw [cutBefore_eq_take sub s i h] at hinf
      exact not_inf_cutBefore sub hsub s (hinf.trans (pyStrip_inf _))

theorem stripTag_inf (sub s : List Char) : stripTag sub s <:+: s := by
  unfold stripTag
  cases h : pyFind sub s with
  | none => exact ⟨[], [], by simp⟩
  | some i => exact (pyStrip_inf _).trans (pre_to_inf (take_pre s i))

theorem not_inf_pyContains {sub s : List Char} (h : ¬ sub <:+: s) :
    pyContains sub s = false := by
  unfold pyContains
  cases hf : pyFind sub s with
  | none => rfl
  | some i => exact absurd (pyFind_some_inf sub s i hf) h

theorem ite_mem_valid (x : List Char) :
    (if x ∈ validLevels then x else "normal".toList) ∈ validLevels := by
  split
  · assumption
  · decide

theorem parseUrgency_mem (full : List Char) : parseUrgency full ∈ validLevels := by
  unfold parseUrgency
  cases hf : pyFind urgencyTag full with
  | none => exact (by decide : ("normal".toList ∈ validLevels))
  | some i => exact ite_mem_valid _

theorem parseUrgency_default (full : List Char)
    (h : pyContains urgencyTag full = false) :
    parseUrgency full = "normal".toList := by
  unfold pyContains at h
  unfold parseUrgency
  cases hf : pyFind urgencyTag full with
  | none => rfl
  | some i => rw [hf] at h; simp at h

theorem parseUrgency_at_tag (full : List Char) (i : Nat)
    (h : pyFind urgencyTag full = some i) :
    parseUrgency full =
      (if parsedLevel full i ∈ validLevels then parsedLevel full i
       else "normal".toList) := by
  unfold parseUrgency
  rw [h]
  rfl

theorem parseUrgency_unrecognized (full : List Char) (i : Nat)
    (h : pyFind urgencyTag full = some i)
    (hv : parsedLevel full i ∉ validLevels) :
    parseUrgency full = "normal".toList := by
  rw [parseUrgency_at_tag full i h, if_neg hv]

/-- C1: if the language-model call raises (fails or times out),
`generate_response` does not propagate the exception: for every
conversation history and every input it returns the fixed fail-safe
message together with the classification level `"critical"`, which is the
most urgent level (listed first in the enumerated `validLevels`). -/
theorem c1_llm_failure_failsafe (conversation_history : List Turn)
    (user_input : List Char) (err : List Char) :
    generate_response conversation_history user_input (.error err) =
      (failSafeText, "critical".toList, some ("Emergency Procedures Manual".toList)) ∧
    validLevels.head? = some ("critical".toList) := by
  exact ⟨rfl, rfl⟩

end Aurora

namespace Aurora

/-- C4: on the success path of `generate_response`, for every raw model
output string (including malformed or unclosed bracket tags — parsing is a
total function and never raises), the returned urgency classification
belongs to the fixed enumerated set `validLevels` =
{critical, urgent, normal, assistive}; when the `[URGENCY: ...]` tag is
absent the result defaults to the safe level `"normal"`; and when the tag
is present but its extracted value (`parsedLevel`, the stripped and
lowered slice after the tag) is not one of the enumerated levels, the
result likewise defaults to `"normal"`. -/
theorem c4_urgency_enumerated (conversation_history : List Turn)
    (user_input full : List Char) :
    (generate_response conversation_history user_input (.ok full)).2.1 ∈ validLevels ∧
    (pyContains urgencyTag full = false →
      (generate_response conversation_history user_input (.ok full)).2.1 =
        "normal".toList) ∧
    (∀ i, pyFind urgencyTag full = some i →
      parsedLevel full i ∉ validLevels →
      (generate_response conversation_history user_input (.ok full)).2.1 =
        "normal".toList) := by
  exact ⟨parseUrgency_mem full, fun h => parseUrgency_default full h,
    fun i hi hv => parseUrgency_unrecognized full i hi hv⟩

/-- Witness for C4 at a tag-free output and at an output whose tag value
`"banana"` is unrecognized. -/
theorem c4_urgency_enumerated_witness :
    (generate_response [] [] (Except.ok ("Stay calm.".toList))).2.1 ∈ validLevels ∧
    (generate_response [] [] (Except.ok ("Stay calm.".toList))).2.1 =
      "normal".toList ∧
    (generate_response [] []
      (Except.ok ("Ok. [URGENCY: banana]".toList))).2.1 = "normal".toList :=
  ⟨(c4_urgency_enumerated [] [] _).1,
   (c4_urgency_enumerated [] [] ("Stay calm.".toList)).2.1 (by decide),
   (c4_urgency_enumerated [] [] ("Ok. [URGENCY: banana]".toList)).2.2 4
     (by decide) (by decide)⟩

/-- C5: for every raw model output string, the response text returned by
`generate_response` has the bracketed tags stripped: it contains neither
the substring `"[URGENCY:"` nor the substring `"[SOURCES:"`. -/
theorem c5_tags_stripped (conversation_history : List Turn)
    (user_input full : List Char) :
    pyContains urgencyTag
      (generate_response conversation_history user_input (.ok full)).1 = false ∧
    pyContains sourcesTag
      (generate_response conversation_history user_input (.ok full)).1 = false := by
  have hu : ¬ urgencyTag <:+: stripTag urgencyTag full :=
    stripTag_not_inf urgencyTag full (by decide)
  have hs : ¬ sourcesTag <:+: stripTags full :=
    stripTag_not_inf sourcesTag (stripTag urgencyTag full) (by decide)
  have hmid : stripTags full <:+: stripTag urgencyTag full :=
    stripTag_inf sourcesTag (stripTag urgencyTag full)
  exact ⟨not_inf_pyContains (fun hc => hu (hc.trans hmid)), not_inf_pyContains hs⟩

end Aurora

namespace Aurora

/-! Lemmas about the conversation store and the speech webhook. -/

theorem record_answer_history (conv : Conv) (speech text urgency : List Char)
    (sources : Option (List Char)) :
    (record_answer conv speech text urgency sources).history =
      conv.history ++ [⟨"user".toList, speech⟩, ⟨"assistant".toList, text⟩] := by
  unfold record_answer
  split <;> simp [add_message]

theorem record_answer_count (conv : Conv) (speech text urgency : List Char)
    (sources : Option (List Char)) :
    (record_answer conv speech text urgency sources).exchangeCount =
      conv.exchangeCount + 1 := by
  have ha : ("assistant".toList = "user".toList) = False := by decide
  unfold record_answer
  split <;> simp [add_message, ha]

theorem process_speech_bound
    (llm : List Turn → List Char → List Char × List Char × Option (List Char))
    (conv : Conv) (speech : List Char)
    (hlen : conv.history.length = 2 * conv.exchangeCount)
    (hcap : conv.exchangeCount ≤ MAX_CONVERSATION_LENGTH)
    (c' : Conv) (h : (process_speech llm conv speech).1 = some c') :
    c'.history.length = 2 * c'.exchangeCount ∧
      c'.exchangeCount ≤ MAX_CONVERSATION_LENGTH := by
  unfold process_speech at h
  by_cases h1 : MAX_CONVERSATION_LENGTH ≤ conv.exchangeCount
  · rw [if_pos h1] at h
    exact absurd h (by simp)
  · rw [if_neg h1] at h
    by_cases h2 : speech = [] ∨ (pyStrip speech).length < 3
    · rw [if_pos h2] at h
      obtain rfl : conv = c' := by simpa using h
      exact ⟨hlen, hcap⟩
    · rw [if_neg h2] at h
      have hc : record_answer conv speech
          (llm (add_message conv "user".toList speech).history speech).1
          (llm (add_message conv "user".toList speech).history speech).2.1
          (llm (add_message conv "user".toList speech).history speech).2.2 = c' := by
        simpa using h
      subst hc
      rw [record_answer_history, record_answer_count]
      constructor
      · simp [hlen]
        omega
      · omega

theorem speech_session_inv
    (llm : List Turn → List Char → List Char × List Char × Option (List Char))
    (inputs : List (List Char)) :
    ∀ slot : Option Conv,
      (∀ c, slot = some c → c.history.length = 2 * c.exchangeCount ∧
        c.exchangeCount ≤ MAX_CONVERSATION_LENGTH) →
      ∀ c', speech_session llm slot inputs = some c' →
        c'.history.length = 2 * c'.exchangeCount ∧
          c'.exchangeCount ≤ MAX_CONVERSATION_LENGTH := by
  induction inputs with
  | nil =>
      intro slot hs c' h
      exact hs c' h
  | cons sp rest ih =>
      intro slot hs c' h
      simp only [speech_session] at h
      refine ih _ ?_ c' h
      intro c hc
      unfold speech_round at hc
      have hP : (slot.getD freshConv).history.length =
          2 * (slot.getD freshConv).exchangeCount ∧
          (slot.getD freshConv).exchangeCount ≤ MAX_CONVERSATION_LENGTH := by
        cases slot with
        | none => exact ⟨rfl, by decide⟩
        | some c0 => exact hs c0 rfl
      exact process_speech_bound llm _ sp hP.1 hP.2 c hc

/-- C2 counterexample: starting a fresh call and answering eleven accepted
exchanges, the retained history holds 22 turns — more than
`MAX_CONVERSATION_LENGTH + 1 = 21`, and with no system-preamble turn ever
stored, so the claimed `cap + 1` window bound is violated by the code. -/
theorem c2_window_counterexample :
    (speech_session (fun _ _ => ("ok".toList, "normal".toList, none)) none
        (List.replicate 11 ("status report please".toList))).map
        (fun c => c.history.length) = some 22 ∧
    MAX_CONVERSATION_LENGTH + 1 < 22 := by
  exact ⟨rfl, by decide⟩

/-- C2 amended: `ConversationManager` never truncates and never stores a
system preamble (the preamble is prepended per-request inside
`generate_response`); instead `process_speech` refuses further exchanges
once `exchange_count` reaches `MAX_CONVERSATION_LENGTH`, so over every
call session the retained history holds exactly two turns per accepted
exchange and its length never exceeds `2 * MAX_CONVERSATION_LENGTH = 40`. -/
theorem c2_history_twice_cap
    (llm : List Turn → List Char → List Char × List Char × Option (List Char))
    (inputs : List (List Char)) (c' : Conv)
    (h : speech_session llm none inputs = some c') :
    c'.history.length = 2 * c'.exchangeCount ∧
    c'.history.length ≤ 2 * MAX_CONVERSATION_LENGTH := by
  obtain ⟨h1, h2⟩ :=
    speech_session_inv llm inputs none (by intro c hc; simp at hc) c' h
  exact ⟨h1, by omega⟩

/-- Witness for C2 amended: one accepted exchange from a fresh call. -/
theorem c2_history_twice_cap_witness :
    (Conv.mk [⟨"user".toList, "valve three is stuck".toList⟩, ⟨"assistant".toList, "ok".toList⟩] 1 []).history.length =
      2 * (Conv.mk [⟨"user".toList, "valve three is stuck".toList⟩, ⟨"assistant".toList, "ok".toList⟩] 1 []).exchangeCount ∧
    (Conv.mk [⟨"user".toList, "valve three is stuck".toList⟩, ⟨"assistant".toList, "ok".toList⟩] 1 []).history.length ≤
      2 * MAX_CONVERSATION_LENGTH :=
  c2_history_twice_cap (fun _ _ => ("ok".toList, "normal".toList, none))
    [("valve three is stuck".toList)] _ rfl

end Aurora

namespace Aurora

/-- C3 counterexample: an input containing the danger keyword `"gas"` is
flagged urgent by the keyword heuristic, yet the response-size budget
(`max_tokens`) passed to the language-model capability is exactly the one
passed for a keyword-free input — there is no separate "urgent" budget. -/
theorem c3_budget_counterexample :
    is_urgent ("gas leak in zone b".toList) = true ∧
    is_urgent ("routine status update".toList) = false ∧
    (livekit_request [] ("gas leak in zone b".toList)).maxTokens =
      (livekit_request [] ("routine status update".toList)).maxTokens := by
  exact ⟨by decide, by decide, rfl⟩

/-- C3 amended: the response-size budget passed to the language-model
capability is a constant — `max_tokens=150` in `aurora_livekit.py` and
`max_tokens=250` in `main.py` — independent of the input; the
urgency-keyword heuristic affects only the `is_urgent` flag returned
alongside the response text, which is `true` whenever any urgency keyword
occurs in the lowered input. -/
theorem c3_budget_constant (conversation_history : List Turn)
    (user_input : List Char) :
    (livekit_request conversation_history user_input).maxTokens = 150 ∧
    (main_request conversation_history user_input).maxTokens = 250 ∧
    (∀ k ∈ urgent_keywords, pyContains k (pyLower user_input) = true →
      is_urgent user_input = true) := by
  refine ⟨rfl, rfl, fun k hk hc => ?_⟩
  exact List.any_eq_true.mpr ⟨k, hk, hc⟩

/-- Witness for C3 amended at the keyword input `"gas leak"`. -/
theorem c3_budget_constant_witness :
    (livekit_request [] ("gas leak".toList)).maxTokens = 150 ∧
    (main_request [] ("gas leak".toList)).maxTokens = 250 ∧
    is_urgent ("gas leak".toList) = true :=
  ⟨(c3_budget_constant [] _).1, (c3_budget_constant [] _).2.1,
   (c3_budget_constant [] _).2.2 ("gas".toList) (by decide) (by decide)⟩

/-- C6: a transcription that is empty or shorter than three characters
after stripping is dropped silently by a call that has not reached the
length cap: the webhook answers with the reprompt-and-redirect outcome
(the call continues, no hangup), the conversation record is unchanged,
and the language-model capability is never invoked (the result does not
depend on the `llm` function at all); the stateless
`/api/process-speech` endpoint likewise returns its fixed
"couldn't understand" JSON without calling the model. -/
theorem c6_short_input_dropped
    (llm llm' : List Turn → List Char → List Char × List Char × Option (List Char))
    (conv : Conv) (speech : List Char)
    (hcap : conv.exchangeCount < MAX_CONVERSATION_LENGTH)
    (hshort : (pyStrip speech).length < 3) :
    process_speech llm conv speech = (some conv, .tooShortReprompt) ∧
    process_speech llm conv speech = process_speech llm' conv speech ∧
    api_process_speech llm speech = .misunderstood := by
  have h1 : ¬ MAX_CONVERSATION_LENGTH ≤ conv.exchangeCount := by omega
  have h2 : speech = [] ∨ (pyStrip speech).length < 3 := Or.inr hshort
  refine ⟨?_, ?_, ?_⟩
  · unfold process_speech
    rw [if_neg h1, if_pos h2]
  · unfold process_speech
    rw [if_neg h1, if_pos h2, if_neg h1, if_pos h2]
  · unfold api_process_speech
    rw [if_pos h2]

/-- Witness for C6: the two-character input `"hi"` on a fresh call, under
two different language models. -/
theorem c6_short_input_dropped_witness :
    process_speech (fun _ _ => ("a".toList, "normal".toList, none)) freshConv
        ("hi".toList) = (some freshConv, SpeechOutcome.tooShortReprompt) ∧
    process_speech (fun _ _ => ("a".toList, "normal".toList, none)) freshConv
        ("hi".toList) =
      process_speech (fun _ _ => ("b".toList, "urgent".toList, none)) freshConv
        ("hi".toList) ∧
    api_process_speech (fun _ _ => ("a".toList, "normal".toList, none))
        ("hi".toList) = ApiOutcome.misunderstood :=
  c6_short_input_dropped _ _ freshConv ("hi".toList) (by decide) (by decide)

/-! Lemmas for the exchange-count invariant (C9). -/

theorem add_message_history (conv : Conv) (role content : List Char) :
    (add_message conv role content).history = conv.history ++ [⟨role, content⟩] :=
  rfl

theorem add_message_count (conv : Conv) (role content : List Char) :
    (add_message conv role content).exchangeCount =
      if role = "user".toList then conv.exchangeCount + 1
      else conv.exchangeCount :=
  rfl

theorem userCount_append (h : List Turn) (t : Turn) :
    userCount (h ++ [t]) =
      userCount h + (if t.role = "user".toList then 1 else 0) := by
  induction h with
  | nil => simp [userCount]
  | cons a r ih => simp [userCount, ih, Nat.add_assoc]

theorem add_message_inv (conv : Conv) (role content : List Char)
    (h : conv.exchangeCount = userCount conv.history) :
    (add_message conv role content).exchangeCount =
      userCount (add_message conv role content).history := by
  rw [add_message_count, add_message_history, userCount_append, h]
  by_cases hr : role = "user".toList
  · rw [if_pos hr, if_pos hr]
  · rw [if_neg hr, if_neg hr, Nat.add_zero]

theorem get_conversation_inv (s : ConvStore) (sid : List Char)
    (hs : StoreInv s) : StoreInv (get_conversation s sid).1 := by
  intro sid' conv h
  unfold get_conversation at h
  cases hc : s sid with
  | some c0 =>
      simp only [hc] at h
      exact hs sid' conv h
  | none =>
      simp only [hc] at h
      by_cases he : sid' = sid
      · rw [if_pos he] at h
        obtain rfl : freshConv = conv := by simpa using h
        rfl
      · rw [if_neg he] at h
        exact hs sid' conv h

theorem get_conversation_self (s : ConvStore) (sid : List Char)
    (hs : StoreInv s) :
    (get_conversation s sid).2.exchangeCount =
      userCount (get_conversation s sid).2.history := by
  unfold get_conversation
  cases hc : s sid with
  | some c0 => exact hs sid c0 hc
  | none => rfl

theorem mgr_add_message_inv (s : ConvStore) (sid role content : List Char)
    (hs : StoreInv s) : StoreInv (mgr_add_message s sid role content) := by
  intro sid' conv h
  unfold mgr_add_message at h
  by_cases he : sid' = sid
  · rw [if_pos he] at h
    obtain rfl : add_message (get_conversation s sid).2 role content = conv := by
      simpa using h
    exact add_message_inv _ role content (get_conversation_self s sid hs)
  · rw [if_neg he] at h
    exact get_conversation_inv s sid hs sid' conv h

theorem applyOps_inv :
    ∀ (ops : List MgrOp) (s : ConvStore), StoreInv s → StoreInv (applyOps ops s) := by
  intro ops
  induction ops with
  | nil => intro s hs; exact hs
  | cons op rest ih =>
      intro s hs
      refine ih (applyOp s op) ?_
      cases op with
      | getConv sid => exact get_conversation_inv s sid hs
      | addMsg sid role content => exact mgr_add_message_inv s sid role content hs

/-- C9: after every sequence of `get_conversation` and `add_message`
operations from the empty store, every stored conversation's
`exchange_count` equals the number of its history entries whose role is
`"user"`: `add_message` increments the counter exactly when the added role
is `"user"`, so assistant messages never count toward the
conversation-length limit. -/
theorem c9_exchange_count_inv (ops : List MgrOp) (sid : List Char) (conv : Conv)
    (h : applyOps ops emptyStore sid = some conv) :
    conv.exchangeCount = userCount conv.history := by
  have hinv : StoreInv (applyOps ops emptyStore) := by
    refine applyOps_inv ops emptyStore ?_
    intro sid' conv' hc
    simp [emptyStore] at hc
  exact hinv sid conv h

/-- Witness for C9: one user and one assistant message on call-sid "a". -/
theorem c9_exchange_count_inv_witness :
    (Conv.mk [⟨"user".toList, "hi".toList⟩, ⟨"assistant".toList, "ok".toList⟩] 1 []).exchangeCount =
      userCount (Conv.mk [⟨"user".toList, "hi".toList⟩, ⟨"assistant".toList, "ok".toList⟩] 1 []).history :=
  c9_exchange_count_inv
    [MgrOp.addMsg ("a".toList) ("user".toList) ("hi".toList),
     MgrOp.addMsg ("a".toList) ("assistant".toList) ("ok".toList)]
    ("a".toList) _ (by decide)

end Aurora

namespace Aurora

/-! Association-list lemmas for the active-calls store (C10). -/

theorem alSet_alSet {α : Type} (k : List Char) (v v' : α)
    (l : List (List Char × α)) :
    alSet k v' (alSet k v l) = alSet k v' l := by
  induction l with
  | nil => simp [alSet]
  | cons p rest ih =>
      by_cases hp : p.1 = k
      · simp [alSet, hp]
      · simp [alSet, hp, ih]

theorem alGet_alSet_self {α : Type} (k : List Char) (v : α)
    (l : List (List Char × α)) :
    alGet k (alSet k v l) = some v := by
  induction l with
  | nil => simp [alSet, alGet]
  | cons p rest ih =>
      by_cases hp : p.1 = k
      · simp only [alSet, if_pos hp]
        unfold alGet
        rw [List.find?_cons_of_pos _ (by simp)]
        rfl
      · simp only [alSet, if_neg hp]
        unfold alGet at ih ⊢
        rwa [List.find?_cons_of_neg _ (by simp [hp])]

theorem countP_alSet_fresh {pred : CallRec → Bool} (k : List Char) (v : CallRec) :
    ∀ l : List (List Char × CallRec),
      (∀ x ∈ l, pred x.2 = false) → pred v = true →
      List.countP (fun p => pred p.2) (alSet k v l) = 1 := by
  intro l
  induction l with
  | nil =>
      intro _ hv
      simp [alSet, hv]
  | cons p rest ih =>
      intro hall hv
      have hrest : List.countP (fun q : List Char × CallRec => pred q.2) rest = 0 := by
        refine List.countP_eq_zero.mpr ?_
        intro a ha
        simp [hall a (List.mem_cons_of_mem p ha)]
      by_cases hp : p.1 = k
      · simp only [alSet, if_pos hp]
        simp [List.countP_cons, hv, hrest]
      · simp only [alSet, if_neg hp]
        have hpf : pred p.2 = false := hall p (List.mem_cons_self p rest)
        rw [List.countP_cons, ih (fun x hx => hall x (List.mem_cons_of_mem p hx)) hv, hpf]
        simp

theorem countP_alSet_le {pred : CallRec → Bool} (k : List Char) (v : CallRec)
    (hv : pred v = false) :
    ∀ l, List.countP (fun p => pred p.2) (alSet k v l) ≤
      List.countP (fun p => pred p.2) l := by
  intro l
  induction l with
  | nil => simp [alSet, hv]
  | cons p rest ih =>
      by_cases hp : p.1 = k
      · simp only [alSet, if_pos hp]
        rw [List.countP_cons, List.countP_cons, hv]
        cases hpp : pred p.2 <;> simp [hpp] <;> omega
      · simp only [alSet, if_neg hp]
        rw [List.countP_cons, List.countP_cons]
        exact Nat.add_le_add_right ih _

theorem countP_alSet_samepred {pred : CallRec → Bool} (k : List Char) (v : CallRec) :
    ∀ l c0, alGet k l = some c0 → pred v = pred c0 →
      List.countP (fun p => pred p.2) (alSet k v l) =
        List.countP (fun p => pred p.2) l := by
  intro l
  induction l with
  | nil =>
      intro c0 h
      simp [alGet] at h
  | cons p rest ih =>
      intro c0 hget hpred
      by_cases hp : p.1 = k
      · have hpc : p.2 = c0 := by
          unfold alGet at hget
          rw [List.find?_cons_of_pos _ (by simp [hp])] at hget
          simpa using hget
        simp only [alSet, if_pos hp]
        rw [List.countP_cons, List.countP_cons, hpred, hpc]
      · have hget2 : alGet k rest = some c0 := by
          unfold alGet at hget ⊢
          rwa [List.find?_cons_of_neg _ (by simp [hp])] at hget
        simp only [alSet, if_neg hp]
        rw [List.countP_cons, List.countP_cons, ih c0 hget2 hpred]

theorem add_entry_reuse_eq (fb : List Char → Bool)
    (fs phone uq ar urg : List Char) (src : Option (List Char))
    (med : List Char) (store : Store) (cid : List Char) (crec c : CallRec)
    (msgs : List ConvMsg)
    (hfind : findActiveCall store.activeCalls phone = some (cid, crec))
    (hfb : fb cid = true)
    (hconv : alGet crec.conversationId store.activeConversations = some msgs)
    (hcall : alGet cid store.activeCalls = some c) :
    add_conversation_entry fb fs phone uq ar urg src med store =
      ({ activeCalls :=
           alSet cid { c with urgency := pyUpper urg } store.activeCalls
         activeConversations :=
           alSet crec.conversationId
             (msgs ++ [⟨"user".toList, uq, []⟩,
                       ⟨"assistant".toList, ar, src.getD []⟩])
             store.activeConversations },
       some (cid, crec.conversationId)) := by
  unfold add_conversation_entry
  simp only [hfind, hfb, if_true, hconv, hcall]

end Aurora

namespace Aurora

theorem add_entry_new_eq (fb : List Char → Bool)
    (fs phone uq ar urg : List Char) (src : Option (List Char))
    (med : List Char) (store : Store)
    (hfind : findActiveCall store.activeCalls phone = none) :
    add_conversation_entry fb fs phone uq ar urg src med store =
      ({ activeCalls :=
           alSet (generate_call_id phone fs)
             (CallRec.mk (worker_id_of phone) phone
               (generate_conv_id (generate_call_id phone fs)) (pyUpper urg)
               ("ACTIVE".toList) med)
             store.activeCalls
         activeConversations :=
           alSet (generate_conv_id (generate_call_id phone fs))
             [⟨"user".toList, uq, []⟩, ⟨"assistant".toList, ar, src.getD []⟩]
             store.activeConversations },
       some (generate_call_id phone fs,
             generate_conv_id (generate_call_id phone fs))) := by
  unfold add_conversation_entry
  simp only [hfind, alGet_alSet_self, alSet_alSet, List.nil_append]

end Aurora

namespace Aurora

/-- C10 counterexample: on a store holding one ACTIVE call for phone
`"p"`, when the Firebase verification reports the call archived (or the
check raises), `add_conversation_entry` creates a second call instead of
reusing the first, while the stale local record keeps status `"ACTIVE"` —
leaving two ACTIVE calls for the same phone number. -/
theorem c10_single_active_counterexample :
    activeCount demoActiveStore ("p".toList) = 1 ∧
    activeCount
      ((add_conversation_entry (fun _ => false) ("20250102".toList) ("p".toList)
        ("valve three is stuck".toList) ("ok".toList) ("normal".toList) none
        ("Voice".toList) demoActiveStore).1) ("p".toList) = 2 := by
  exact ⟨rfl, rfl⟩

/-- C10 amended: provided the Firebase verification confirms the locally
found ACTIVE call (`fb` constantly true — which is also exactly the
behaviour of the `aurora_fastapi.py` variant, which has no Firebase
check), `add_conversation_entry` preserves the at-most-one-ACTIVE-call
per-phone-number invariant, and when an ACTIVE call exists for the phone
it is reused: no new call is created, exactly one user message and one
assistant message are appended to its existing conversation, and its
urgency is updated (the last-message timestamp, a wall-clock field, is
not modelled). -/
theorem c10_reuse_active (fb : List Char → Bool)
    (fs phone uq ar urg : List Char) (src : Option (List Char))
    (med : List Char) (store : Store)
    (hfb : ∀ cid, fb cid = true)
    (hinv : ∀ q, activeCount store q ≤ 1) :
    (∀ q, activeCount
        (add_conversation_entry fb fs phone uq ar urg src med store).1 q ≤ 1) ∧
    (∀ cid crec msgs,
      findActiveCall store.activeCalls phone = some (cid, crec) →
      alGet cid store.activeCalls = some crec →
      alGet crec.conversationId store.activeConversations = some msgs →
      add_conversation_entry fb fs phone uq ar urg src med store =
        ({ activeCalls :=
             alSet cid { crec with urgency := pyUpper urg } store.activeCalls
           activeConversations :=
             alSet crec.conversationId
               (msgs ++ [⟨"user".toList, uq, []⟩,
                         ⟨"assistant".toList, ar, src.getD []⟩])
               store.activeConversations },
         some (cid, crec.conversationId))) := by
  constructor
  · intro q
    cases hf : findActiveCall store.activeCalls phone with
    | some p =>
        cases hconv : alGet p.2.conversationId store.activeConversations with
        | none =>
            have hres :
                (add_conversation_entry fb fs phone uq ar urg src med store).1 =
                  store := by
              unfold add_conversation_entry
              simp only [hf, hfb p.1, if_true, hconv]
            rw [hres]
            exact hinv q
        | some msgs =>
            cases hcall : alGet p.1 store.activeCalls with
            | none =>
                have hres :
                    (add_conversation_entry fb fs phone uq ar urg src med store).1 =
                      store := by
                  unfold add_conversation_entry
                  simp only [hf, hfb p.1, if_true, hconv, hcall]
                rw [hres]
                exact hinv q
            | some c =>
                have hres := add_entry_reuse_eq fb fs phone uq ar urg src med
                  store p.1 p.2 c msgs hf (hfb p.1) hconv hcall
                rw [hres]
                have hcnt := @countP_alSet_samepred (isActiveFor q) p.1
                  ({ c with urgency := pyUpper urg }) store.activeCalls c hcall rfl
                show List.countP (fun r : List Char × CallRec => isActiveFor q r.2) _ ≤ 1
                rw [hcnt]
                exact hinv q
    | none =>
        have hres := add_entry_new_eq fb fs phone uq ar urg src med store hf
        rw [hres]
        have hall : ∀ x ∈ store.activeCalls, isActiveFor phone x.2 = false :=
          fun x hx => Bool.eq_false_iff.mpr (List.find?_eq_none.mp hf x hx)
        by_cases hq : q = phone
        · subst hq
          have hone := @countP_alSet_fresh (isActiveFor q)
            (generate_call_id q fs)
            (CallRec.mk (worker_id_of q) q
              (generate_conv_id (generate_call_id q fs)) (pyUpper urg)
              ("ACTIVE".toList) med)
            store.activeCalls hall (by simp [isActiveFor])
          show List.countP (fun r : List Char × CallRec => isActiveFor q r.2) _ ≤ 1
          rw [hone]
        · have hvf : isActiveFor q (CallRec.mk (worker_id_of phone) phone
              (generate_conv_id (generate_call_id phone fs)) (pyUpper urg)
              ("ACTIVE".toList) med) = false := by
            unfold isActiveFor
            have hpq : (phone == q) = false :=
              beq_eq_false_iff_ne.mpr (fun h => hq h.symm)
            simp [hpq]
          have hle := @countP_alSet_le (isActiveFor q)
            (generate_call_id phone fs)
            (CallRec.mk (worker_id_of phone) phone
              (generate_conv_id (generate_call_id phone fs)) (pyUpper urg)
              ("ACTIVE".toList) med) hvf store.activeCalls
          show List.countP (fun r : List Char × CallRec => isActiveFor q r.2) _ ≤ 1
          exact le_trans hle (hinv q)
  · intro cid crec msgs hfind hcall hconv
    exact add_entry_reuse_eq fb fs phone uq ar urg src med store cid crec crec
      msgs hfind (hfb cid) hconv hcall

/-- Witness for C10 amended: the demo store with one ACTIVE call of phone
`"p"` and a confirming Firebase check — the call is reused and the phone
still has a single ACTIVE call. -/
theorem c10_reuse_active_witness :
    activeCount
      ((add_conversation_entry (fun _ => true) ("20250102".toList) ("p".toList)
        ("valve three is stuck".toList) ("ok".toList) ("normal".toList) none
        ("Voice".toList) demoActiveStore).1) ("p".toList) ≤ 1 ∧
    add_conversation_entry (fun _ => true) ("20250102".toList) ("p".toList)
        ("valve three is stuck".toList) ("ok".toList) ("normal".toList) none
        ("Voice".toList) demoActiveStore =
      ({ activeCalls :=
           alSet ("call_p_1".toList)
             { (demoActiveStore.activeCalls.head (by simp [demoActiveStore])).2 with
                 urgency := pyUpper ("normal".toList) }
             demoActiveStore.activeCalls
         activeConversations :=
           alSet ("conv_p_1".toList)
             ([] ++ [⟨"user".toList, "valve three is stuck".toList, []⟩,
                     ⟨"assistant".toList, "ok".toList, Option.getD none []⟩])
             demoActiveStore.activeConversations },
       some (("call_p_1".toList), ("conv_p_1".toList))) := by
  constructor
  · exact (c10_reuse_active (fun _ => true) ("20250102".toList) ("p".toList)
      ("valve three is stuck".toList) ("ok".toList) ("normal".toList) none
      ("Voice".toList) demoActiveStore (fun _ => rfl)
      (by
        intro q
        show List.countP (fun r : List Char × CallRec => isActiveFor q r.2)
            (((("call_p_1".toList)),
              CallRec.mk ("worker_p".toList) ("p".toList) ("conv_p_1".toList)
                ("NORMAL".toList) ("ACTIVE".toList) ("Voice".toList)) :: []) ≤ 1
        rw [List.countP_cons, List.countP_nil]
        split <;> simp)).1 ("p".toList)
  · exact (c10_reuse_active (fun _ => true) ("20250102".toList) ("p".toList)
      ("valve three is stuck".toList) ("ok".toList) ("normal".toList) none
      ("Voice".toList) demoActiveStore (fun _ => rfl)
      (by
        intro q
        show List.countP (fun r : List Char × CallRec => isActiveFor q r.2)
            (((("call_p_1".toList)),
              CallRec.mk ("worker_p".toList) ("p".toList) ("conv_p_1".toList)
                ("NORMAL".toList) ("ACTIVE".toList) ("Voice".toList)) :: []) ≤ 1
        rw [List.countP_cons, List.countP_nil]
        split <;> simp)).2
      ("call_p_1".toList)
      ((demoActiveStore.activeCalls.head (by simp [demoActiveStore])).2)
      [] (by decide) (by decide) (by decide)

end Aurora

namespace Aurora

/-! Lemmas for the utterance segmenter (C7). -/

theorem ceilDiv_mul_ge (a b : Nat) (hb : 0 < b) : a ≤ ceilDiv a b * b := by
  unfold ceilDiv
  have hdm := Nat.div_add_mod (a + b - 1) b
  have hml : (a + b - 1) % b < b := Nat.mod_lt _ hb
  have hcm : (a + b - 1) / b * b = b * ((a + b - 1) / b) := Nat.mul_comm _ _
  omega

theorem ceilDiv_pos (a b : Nat) (ha : 0 < a) (hb : 0 < b) : 0 < ceilDiv a b := by
  unfold ceilDiv
  exact Nat.div_pos (by omega) hb

theorem segStep_wf (n : Nat) (s : SegState) (b : Bool) (hs : SegWF n s)
    (hn : 0 < n) : SegWF n (segStep n s b).1 := by
  cases s with
  | idle =>
      cases b
      · exact trivial
      · exact ⟨rfl, hn⟩
  | accumulating fs k =>
      cases b
      · show SegWF n (if n ≤ k + 1 then (SegState.idle, some fs)
          else (SegState.accumulating (fs ++ [false]) (k + 1), none)).1
        by_cases hk : n ≤ k + 1
        · rw [if_pos hk]
          exact trivial
        · rw [if_neg hk]
          obtain ⟨h1, h2⟩ := hs
          refine ⟨?_, by omega⟩
          cases fs with
          | nil => simp at h1
          | cons a t => simpa using h1
      · obtain ⟨h1, _⟩ := hs
        refine ⟨?_, hn⟩
        cases fs with
        | nil => simp at h1
        | cons a t => simpa using h1

theorem segStep_emit (n : Nat) (s : SegState) (b : Bool) (s' : SegState)
    (u : List Bool) (hs : SegWF n s) (h : segStep n s b = (s', some u)) :
    b = false ∧ s' = SegState.idle ∧ u.head? = some true ∧
      s = SegState.accumulating u (n - 1) := by
  cases s with
  | idle => cases b <;> simp [segStep] at h
  | accumulating fs k =>
      cases b
      · have h2 : (if n ≤ k + 1 then (SegState.idle, some fs)
            else (SegState.accumulating (fs ++ [false]) (k + 1), none)) =
              (s', some u) := h
        by_cases hk : n ≤ k + 1
        · rw [if_pos hk] at h2
          obtain ⟨hs1, hs2⟩ := hs
          simp only [Prod.mk.injEq, Option.some.injEq] at h2
          obtain ⟨he1, he2⟩ := h2
          subst he1
          subst he2
          refine ⟨rfl, rfl, hs1, ?_⟩
          have : k = n - 1 := by omega
          rw [this]
        · rw [if_neg hk] at h2
          simp at h2
      · simp [segStep] at h

theorem segRun_append (n : Nat) (l1 l2 : List Bool) :
    ∀ s, segRun n s (l1 ++ l2) =
      ((segRun n (segRun n s l1).1 l2).1,
       (segRun n s l1).2 ++ (segRun n (segRun n s l1).1 l2).2) := by
  induction l1 with
  | nil => intro s; simp [segRun]
  | cons f rest ih =>
      intro s
      simp only [List.cons_append, segRun, List.append_eq]
      rw [ih (segStep n s f).1]
      simp [List.append_assoc]

theorem segRun_emits_speech (n : Nat) (hn : 0 < n) :
    ∀ (frames : List Bool) (s : SegState), SegWF n s →
      ∀ u, u ∈ (segRun n s frames).2 → u.head? = some true := by
  intro frames
  induction frames with
  | nil =>
      intro s _ u hu
      simp [segRun] at hu
  | cons f rest ih =>
      intro s hs u hu
      simp only [segRun] at hu
      rw [List.mem_append] at hu
      cases hu with
      | inl h =>
          cases hemit : (segStep n s f).2 with
          | none => rw [hemit] at h; simp at h
          | some v =>
              rw [hemit] at h
              simp only [Option.toList_some, List.mem_singleton] at h
              subst h
              have hpair : segStep n s f = ((segStep n s f).1, some u) :=
                Prod.ext rfl hemit
              exact (segStep_emit n s f (segStep n s f).1 u hs hpair).2.2.1
      | inr h => exact ih (segStep n s f).1 (segStep_wf n s f hs hn) u h

theorem head_true_mem {u : List Bool} (h : u.head? = some true) : true ∈ u := by
  cases u with
  | nil => simp at h
  | cons a t =>
      simp only [List.head?_cons, Option.some.injEq] at h
      subst h
      exact List.mem_cons_self _ _

theorem segRun_silence (n : Nat) :
    ∀ (j k : Nat) (fs : List Bool), 0 < j → k + j = n →
      segRun n (SegState.accumulating fs k) (List.replicate j false) =
        (SegState.idle, [fs ++ List.replicate (j - 1) false]) := by
  intro j
  induction j with
  | zero =>
      intro k fs h _
      simp at h
  | succ j ih =>
      intro k fs hj hkn
      rw [List.replicate_succ]
      simp only [segRun]
      by_cases hj0 : j = 0
      · subst hj0
        have hk : n ≤ k + 1 := by omega
        simp [segStep, if_pos hk, segRun]
      · have hk : ¬ n ≤ k + 1 := by omega
        simp only [segStep, if_neg hk]
        rw [ih (k + 1) (fs ++ [false]) (by omega) (by omega)]
        have hrep : false :: List.replicate (j - 1) false =
            List.replicate j false := by
          rw [← List.replicate_succ]
          congr 1
          omega
        simp only [Option.toList_none, List.nil_append, Nat.add_sub_cancel]
        rw [List.append_assoc, List.singleton_append, hrep]

theorem segStep_speech (n : Nat) (s : SegState) :
    ∃ fs, segStep n s true = (SegState.accumulating fs 0, none) := by
  cases s with
  | idle => exact ⟨[true], rfl⟩
  | accumulating fs k => exact ⟨fs ++ [true], rfl⟩

end Aurora

namespace Aurora

/-- C7 (modelled from the spec — the `UtteranceSegmenter` of the
real-time pipeline core is not among the source files under review): with
the finalize threshold `n = ceil(SILENCE_DURATION_MS / FRAME_DURATION_MS)`,
(i) `n` silence frames cover at least the configured silence duration;
(ii) a finalization step occurs exactly on a silence frame that brings the
trailing-silence count to the threshold, in a state whose open utterance
began with a speech frame — so an utterance with zero speech frames is
never finalized (iii); and (iv)–(v) one speech frame followed by
threshold-many silence frames always finalizes an utterance. -/
theorem c7_finalize_iff (sil fr : Nat) (hsil : 0 < sil) (hfr : 0 < fr) :
    sil ≤ ceilDiv sil fr * fr ∧
    (∀ s b s' u, SegWF (ceilDiv sil fr) s →
      segStep (ceilDiv sil fr) s b = (s', some u) →
      b = false ∧ s' = SegState.idle ∧ u.head? = some true ∧
        s = SegState.accumulating u (ceilDiv sil fr - 1)) ∧
    (∀ frames u,
      u ∈ (segRun (ceilDiv sil fr) SegState.idle frames).2 → true ∈ u) ∧
    (∀ fs, segRun (ceilDiv sil fr) (SegState.accumulating fs 0)
        (List.replicate (ceilDiv sil fr) false) =
      (SegState.idle, [fs ++ List.replicate (ceilDiv sil fr - 1) false])) ∧
    (∀ pre, (segRun (ceilDiv sil fr) SegState.idle
        (pre ++ [true] ++ List.replicate (ceilDiv sil fr) false)).2 ≠ []) := by
  have hn : 0 < ceilDiv sil fr := ceilDiv_pos sil fr hsil hfr
  refine ⟨ceilDiv_mul_ge sil fr hfr, ?_, ?_, ?_, ?_⟩
  · intro s b s' u hs h
    exact segStep_emit (ceilDiv sil fr) s b s' u hs h
  · intro frames u hu
    exact head_true_mem
      (segRun_emits_speech (ceilDiv sil fr) hn frames SegState.idle trivial u hu)
  · intro fs
    exact segRun_silence (ceilDiv sil fr) (ceilDiv sil fr) 0 fs hn (by omega)
  · intro pre
    obtain ⟨fs2, hfs2⟩ :=
      segStep_speech (ceilDiv sil fr) (segRun (ceilDiv sil fr) SegState.idle pre).1
    have hst : (segRun (ceilDiv sil fr) SegState.idle (pre ++ [true])).1 =
        SegState.accumulating fs2 0 := by
      rw [segRun_append]
      simp [segRun, hfs2]
    rw [segRun_append, hst,
      segRun_silence (ceilDiv sil fr) (ceilDiv sil fr) 0 fs2 hn (by omega)]
    simp

/-- Witness for C7 at `SILENCE_DURATION_MS = 300`, `FRAME_DURATION_MS = 30`
(threshold 10 frames): a finalize step at the threshold, the full
silence-run finalization, and a complete stream with one speech frame. -/
theorem c7_finalize_iff_witness :
    300 ≤ ceilDiv 300 30 * 30 ∧
    (false = false ∧ SegState.idle = SegState.idle ∧
      ([true] : List Bool).head? = some true ∧
      SegState.accumulating [true] 9 =
        SegState.accumulating [true] (ceilDiv 300 30 - 1)) ∧
    (segRun (ceilDiv 300 30) (SegState.accumulating [true] 0)
        (List.replicate (ceilDiv 300 30) false) =
      (SegState.idle, [[true] ++ List.replicate (ceilDiv 300 30 - 1) false])) ∧
    (segRun (ceilDiv 300 30) SegState.idle
        ([false] ++ [true] ++ List.replicate (ceilDiv 300 30) false)).2 ≠ [] :=
  ⟨(c7_finalize_iff 300 30 (by decide) (by decide)).1,
   (c7_finalize_iff 300 30 (by decide) (by decide)).2.1
     (SegState.accumulating [true] 9) false SegState.idle [true]
     ⟨rfl, by decide⟩ (by decide),
   (c7_finalize_iff 300 30 (by decide) (by decide)).2.2.2.1 [true],
   (c7_finalize_iff 300 30 (by decide) (by decide)).2.2.2.2 [false]⟩

end Aurora

namespace Aurora

/-! Lemmas for the streaming synthesizer trace (C8). -/

theorem playOrder_synthTrace : ∀ n, playOrder (synthTrace n) = List.range n := by
  intro n
  induction n with
  | zero => rfl
  | succ n ih =>
      show playOrder (synthTrace n ++ [SynthEv.synth n, SynthEv.enqueue n]) = _
      unfold playOrder at ih ⊢
      rw [List.filterMap_append, ih, List.range_succ]
      rfl

theorem synthTrace_extend : ∀ m n : Nat, m ≤ n →
    ∃ r, synthTrace n = synthTrace m ++ r := by
  intro m n
  induction n with
  | zero =>
      intro h
      have hm : m = 0 := by omega
      subst hm
      exact ⟨[], rfl⟩
  | succ n ih =>
      intro h
      by_cases hm : m = n + 1
      · subst hm
        exact ⟨[], by simp⟩
      · obtain ⟨r, hr⟩ := ih (by omega)
        refine ⟨r ++ [SynthEv.synth n, SynthEv.enqueue n], ?_⟩
        show synthTrace n ++ [SynthEv.synth n, SynthEv.enqueue n] = _
        rw [hr, List.append_assoc]

theorem enqueue_mem_synthTrace (i : Nat) :
    SynthEv.enqueue i ∈ synthTrace (i + 1) := by
  show SynthEv.enqueue i ∈ synthTrace i ++ [SynthEv.synth i, SynthEv.enqueue i]
  simp

theorem synth_mem_lt : ∀ (k m : Nat), SynthEv.synth m ∈ synthTrace k → m < k := by
  intro k
  induction k with
  | zero =>
      intro m h
      simp [synthTrace] at h
  | succ k ih =>
      intro m h
      rw [show synthTrace (k + 1) =
        synthTrace k ++ [SynthEv.synth k, SynthEv.enqueue k] from rfl,
        List.mem_append] at h
      cases h with
      | inl h => exact Nat.lt_succ_of_lt (ih m h)
      | inr h =>
          simp only [List.mem_cons, List.mem_singleton, List.not_mem_nil,
            or_false] at h
          rcases h with h | h
          · cases h
            omega
          · exact absurd h (by simp)
  
theorem synth_mem_of_lt : ∀ (k m : Nat), m < k →
    SynthEv.synth m ∈ synthTrace k := by
  intro k
  induction k with
  | zero =>
      intro m h
      omega
  | succ k ih =>
      intro m h
      rw [show synthTrace (k + 1) =
        synthTrace k ++ [SynthEv.synth k, SynthEv.enqueue k] from rfl,
        List.mem_append]
      by_cases hm : m = k
      · subst hm
        right
        simp
      · exact Or.inl (ih m (by omega))

/-- C8 (modelled from the spec — the `StreamingSynthesizer` and
`PlaybackSink` of the real-time pipeline core are not among the source
files under review): the response text is split into sentence units in
original order — `"A. B. C."` yields `["A.", "B.", "C."]`; the playback
order (FIFO drain of the enqueue events) equals the original unit order;
and each unit's audio is handed onward as soon as it is ready: for `i < j`
the trace splits so that unit `i` is already enqueued strictly before the
synthesis of unit `j` occurs — the synthesizer never waits for all units
before the first is enqueued. -/
theorem c8_streaming_order :
    splitSentences ("A. B. C.".toList) =
      ["A.".toList, "B.".toList, "C.".toList] ∧
    (∀ n, playOrder (synthTrace n) = List.range n) ∧
    (∀ n i j, i < j → j < n →
      ∃ l r, synthTrace n = l ++ r ∧ SynthEv.enqueue i ∈ l ∧
        SynthEv.synth j ∈ r ∧ SynthEv.synth j ∉ l) := by
  refine ⟨by decide, playOrder_synthTrace, ?_⟩
  intro n i j hij hjn
  obtain ⟨r, hr⟩ := synthTrace_extend (i + 1) n (by omega)
  refine ⟨synthTrace (i + 1), r, hr, enqueue_mem_synthTrace i, ?_, ?_⟩
  · have hmem : SynthEv.synth j ∈ synthTrace n := synth_mem_of_lt n j hjn
    rw [hr, List.mem_append] at hmem
    cases hmem with
    | inl h =>
        have := synth_mem_lt (i + 1) j h
        omega
    | inr h => exact h
  · intro h
    have := synth_mem_lt (i + 1) j h
    omega

/-- Witness for C8 at the three-sentence response `"A. B. C."`. -/
theorem c8_streaming_order_witness :
    splitSentences ("A. B. C.".toList) =
      ["A.".toList, "B.".toList, "C.".toList] ∧
    playOrder (synthTrace 3) = List.range 3 ∧
    (∃ l r, synthTrace 3 = l ++ r ∧ SynthEv.enqueue 0 ∈ l ∧
      SynthEv.synth 2 ∈ r ∧ SynthEv.synth 2 ∉ l) :=
  ⟨c8_streaming_order.1, c8_streaming_order.2.1 3,
   c8_streaming_order.2.2 3 0 2 (by decide) (by decide)⟩

end Aurora
